import Mathlib

/-!
Verification of the StaticPoolAllocator repository: a fixed-block static
memory pool (pool.c) with a bit-per-block occupancy bitmap, first-fit
allocation, validated silent-no-op free, and a free-block counter.

Shallow embedding conventions:
- Machine bytes are Nat values; a uint8 store truncates with mod 256.
- The pool handle struct (pool_types.h) is a structure of two byte lists:
  memory (POOL_NUM_BLOCKS * POOL_BLOCK_SIZE bytes) and bitmap
  (BITMAP_BYTES bytes). Well-formedness (the C array sizes) is the
  predicate TPool_handle.WF.
- A possibly-NULL handle pointer is Option TPool_handle; functions that
  mutate through the pointer return the new Option TPool_handle.
- The block pointer passed to pool_free is modelled as its signed address
  offset from pool_start (an Option Int; none is the NULL pointer).
  The C comparisons p_block < pool_start and p_block >= pool_end become
  off < 0 and off >= POOL_NUM_BLOCKS * POOL_BLOCK_SIZE.
- The value returned by pool_alloc is modelled as the offset of the
  returned address from the storage base: block_index * POOL_BLOCK_SIZE.
-/

/-- POOL_BLOCK_SIZE from cfg/pool_cfg.h. -/
def POOL_BLOCK_SIZE : Nat := 32

/-- POOL_NUM_BLOCKS from cfg/pool_cfg.h. -/
def POOL_NUM_BLOCKS : Nat := 4

/-- BITMAP_BYTES from pool.c: (POOL_NUM_BLOCKS + 7) / 8 bytes of bitmap.
The same expression sizes the bitmap array in pool_types.h. -/
def BITMAP_BYTES : Nat := (POOL_NUM_BLOCKS + 7) / 8

/-- TPool_handle from pool_types.h: the raw memory pool followed by the
allocation bitmap, both byte arrays. -/
structure TPool_handle where
  memory : List Nat
  bitmap : List Nat
deriving DecidableEq

/-- The C array sizes of the two fields, guaranteed by the struct type:
memory has POOL_NUM_BLOCKS * POOL_BLOCK_SIZE bytes, bitmap has
BITMAP_BYTES bytes, and every byte value fits in a uint8. -/
def TPool_handle.WF (h : TPool_handle) : Prop :=
  h.memory.length = POOL_NUM_BLOCKS * POOL_BLOCK_SIZE ∧
  h.bitmap.length = BITMAP_BYTES ∧
  (∀ b ∈ h.memory, b < 256) ∧ (∀ b ∈ h.bitmap, b < 256)

instance (h : TPool_handle) : Decidable h.WF := by
  unfold TPool_handle.WF; infer_instance

/-- set_bit from pool.c: byte_index = index / 8, bit_offset = index % 8,
then the byte is ORed with the mask; the store back into the uint8 array
truncates mod 256. Out-of-range byte_index is undefined behaviour in C;
List.set leaves the list unchanged there. -/
def set_bit (bitmap : List Nat) (index : Nat) : List Nat :=
  let byte_index := index / 8
  let bit_offset := index % 8
  bitmap.set byte_index ((bitmap.getD byte_index 0 ||| (1 <<< bit_offset)) % 256)

/-- clear_bit from pool.c: mask = (uint8)(1 << bit_offset); the byte is
ANDed with the complement of the mask (as a uint8, the complement of a
mask below 256 is 255 XOR mask). -/
def clear_bit (bitmap : List Nat) (index : Nat) : List Nat :=
  let byte_index := index / 8
  let bit_offset := index % 8
  let mask := (1 <<< bit_offset) % 256
  bitmap.set byte_index (bitmap.getD byte_index 0 &&& (255 ^^^ mask))

/-- test_bit from pool.c: (bitmap[index / 8] >> (index % 8)) & 1.
Reading past the array is undefined behaviour in C; getD returns 0. -/
def test_bit (bitmap : List Nat) (index : Nat) : Nat :=
  (bitmap.getD (index / 8) 0 >>> (index % 8)) &&& 1

/-- The scanning loop of find_first_free in pool.c, phrased with the
remaining iteration count as fuel: scans indices i, i+1, ... while fuel
remains, returning the first index whose bit is clear, else -1. -/
def find_first_free_go (bitmap : List Nat) : Nat → Nat → Int
  | 0, _ => -1
  | fuel + 1, i => if test_bit bitmap i = 0 then (i : Int) else find_first_free_go bitmap fuel (i + 1)

/-- find_first_free from pool.c: scan bits 0 .. num_blocks-1 in ascending
order; return the first clear index, or -1 if every bit is set. -/
def find_first_free (bitmap : List Nat) (num_blocks : Nat) : Int :=
  find_first_free_go bitmap num_blocks 0

/-- mem_set from base/helper_routines.c, restricted to its byte-filling
loop: writes value mod 256 (the uint8 cast) into the first num bytes.
The C loop past the end of the destination object would be undefined
behaviour; the model stops at the end of the list. -/
def mem_set (dest : List Nat) (value : Nat) (num : Nat) : List Nat :=
  match dest, num with
  | l, 0 => l
  | [], _ + 1 => []
  | _b :: rest, n + 1 => (value % 256) :: mem_set rest value n

/-- pool_init from pool.c: NULL handle is a no-op; otherwise mem_set
zeroes all sizeof(TPool_handle) bytes of the handle, i.e. the memory
array followed by the bitmap array. -/
def pool_init (p_handle : Option TPool_handle) : Option TPool_handle :=
  match p_handle with
  | none => none
  | some h =>
    let bytes := mem_set (h.memory ++ h.bitmap) 0 (POOL_NUM_BLOCKS * POOL_BLOCK_SIZE + BITMAP_BYTES)
    some ⟨bytes.take (POOL_NUM_BLOCKS * POOL_BLOCK_SIZE), bytes.drop (POOL_NUM_BLOCKS * POOL_BLOCK_SIZE)⟩

/-- pool_alloc from pool.c. Returns the allocated address as an offset
from the storage base (block_index * POOL_BLOCK_SIZE) together with the
updated handle; returns none and leaves the handle unchanged when the
handle is NULL or no block is free. -/
def pool_alloc (p_handle : Option TPool_handle) : Option Nat × Option TPool_handle :=
  match p_handle with
  | none => (none, none)
  | some h =>
    let block_index := find_first_free h.bitmap POOL_NUM_BLOCKS
    if block_index < 0 then
      (none, some h)
    else
      (some (block_index.toNat * POOL_BLOCK_SIZE),
       some { h with bitmap := set_bit h.bitmap block_index.toNat })

/-- pool_free from pool.c. The block pointer is its signed offset from
pool_start (none is NULL). Validation order as in the source: NULL
checks, bounds check against the pool range, block alignment, block
index range, then clear the bit only if it is currently set. -/
def pool_free (p_handle : Option TPool_handle) (p_block : Option Int) : Option TPool_handle :=
  match p_handle with
  | none => none
  | some h =>
    match p_block with
    | none => some h
    | some off =>
      if off < 0 ∨ ((POOL_NUM_BLOCKS * POOL_BLOCK_SIZE : Nat) : Int) ≤ off then
        some h
      else
        let block_index := off.toNat / POOL_BLOCK_SIZE
        if off.toNat % POOL_BLOCK_SIZE ≠ 0 then
          some h
        else if POOL_NUM_BLOCKS ≤ block_index then
          some h
        else if test_bit h.bitmap block_index ≠ 0 then
          some { h with bitmap := clear_bit h.bitmap block_index }
        else
          some h

/-- The counting loop of pool_get_free_count in pool.c: the value of
free_count after scanning bits 0 .. n-1, incrementing on each clear bit. -/
def free_count_upto (bitmap : List Nat) : Nat → Nat
  | 0 => 0
  | n + 1 => free_count_upto bitmap n + (if test_bit bitmap n = 0 then 1 else 0)

/-- pool_get_free_count from pool.c: 0 for a NULL handle, otherwise the
number of clear bits among indices 0 .. POOL_NUM_BLOCKS-1. -/
def pool_get_free_count (p_handle : Option TPool_handle) : Nat :=
  match p_handle with
  | none => 0
  | some h => free_count_upto h.bitmap POOL_NUM_BLOCKS

/-- The handle state produced by pool_init on a well-formed handle:
every byte of storage and of the bitmap is zero. -/
def all_zero_handle : TPool_handle :=
  ⟨List.replicate (POOL_NUM_BLOCKS * POOL_BLOCK_SIZE) 0, List.replicate BITMAP_BYTES 0⟩

/-- BITS_PER_BYTE from pool_types.h. -/
def BITS_PER_BYTE : Nat := 8

/-- Results and final state of n consecutive pool_alloc calls. -/
def alloc_results : Nat → Option TPool_handle → List (Option Nat) × Option TPool_handle
  | 0, p => ([], p)
  | n + 1, p =>
    let r := pool_alloc p
    let rest := alloc_results n r.2
    (r.1 :: rest.1, rest.2)

/-- One call of the public API surface of pool.c, with its argument where
the operation takes one. -/
inductive PoolOp where
  | opInit : PoolOp
  | opAlloc : PoolOp
  | opFree : Option Int → PoolOp
  | opCount : PoolOp

/-- The effect of one API call on the handle the caller passes by
reference. pool_get_free_count takes a const handle and mutates nothing;
the value returned by pool_alloc is irrelevant to the handle state. -/
def run_op : PoolOp → Option TPool_handle → Option TPool_handle
  | .opInit, p => pool_init p
  | .opAlloc, p => (pool_alloc p).2
  | .opFree q, p => pool_free p q
  | .opCount, p => p

/-- The handle state after a sequence of API calls. -/
def run_ops (ops : List PoolOp) (p : Option TPool_handle) : Option TPool_handle :=
  ops.foldl (fun s op => run_op op s) p

/-- pool_free as it would be without the final block_index range check
(the branch at lines 220-223 of pool.c); used to show that branch is
never taken. -/
def pool_free_unguarded (p_handle : Option TPool_handle) (p_block : Option Int) : Option TPool_handle :=
  match p_handle with
  | none => none
  | some h =>
    match p_block with
    | none => some h
    | some off =>
      if off < 0 ∨ ((POOL_NUM_BLOCKS * POOL_BLOCK_SIZE : Nat) : Int) ≤ off then
        some h
      else
        let block_index := off.toNat / POOL_BLOCK_SIZE
        if off.toNat % POOL_BLOCK_SIZE ≠ 0 then
          some h
        else if test_bit h.bitmap block_index ≠ 0 then
          some { h with bitmap := clear_bit h.bitmap block_index }
        else
          some h

/-! ### Bitmap primitive lemmas -/

/-- The test_bit primitive agrees with Nat.testBit on the addressed byte. -/
theorem test_bit_eq_testBit (bm : List Nat) (k : Nat) :
    test_bit bm k = ((bm.getD (k / 8) 0).testBit (k % 8)).toNat := by
  have key : ∀ x : Nat, x / 2 ^ (k % 8) % 2 = (x.testBit (k % 8)).toNat := by
    intro x
    rw [Nat.testBit_to_div_mod]
    rcases Nat.mod_two_eq_zero_or_one (x / 2 ^ (k % 8)) with h | h <;> simp [h]
  unfold test_bit
  rw [Nat.and_one_is_mod, Nat.shiftRight_eq_div_pow, key]

theorem test_bit_eq_zero_iff (bm : List Nat) (k : Nat) :
    test_bit bm k = 0 ↔ (bm.getD (k / 8) 0).testBit (k % 8) = false := by
  rw [test_bit_eq_testBit]
  rcases (bm.getD (k / 8) 0).testBit (k % 8) with _ | _ <;> simp

theorem test_bit_ne_zero_iff (bm : List Nat) (k : Nat) :
    test_bit bm k ≠ 0 ↔ (bm.getD (k / 8) 0).testBit (k % 8) = true := by
  rw [test_bit_eq_testBit]
  rcases (bm.getD (k / 8) 0).testBit (k % 8) with _ | _ <;> simp

theorem getD_set_self (l : List Nat) (i v : Nat) (h : i < l.length) :
    (l.set i v).getD i 0 = v := by
  rw [List.getD_eq_getElem _ _ (by simpa using h)]
  exact List.getElem_set_self (by simpa using h)

theorem getD_set_ne (l : List Nat) (i j v : Nat) (h : j ≠ i) :
    (l.set i v).getD j 0 = l.getD j 0 := by
  by_cases hj : j < l.length
  · rw [List.getD_eq_getElem _ _ (by simpa using hj),
      List.getD_eq_getElem _ _ hj]
    exact List.getElem_set_ne (Ne.symm h) _
  · rw [List.getD_eq_default _ _ (by simpa using Nat.le_of_not_lt hj),
      List.getD_eq_default _ _ (Nat.le_of_not_lt hj)]

theorem length_set_bit (bm : List Nat) (i : Nat) : (set_bit bm i).length = bm.length :=
  List.length_set ..

theorem length_clear_bit (bm : List Nat) (i : Nat) : (clear_bit bm i).length = bm.length :=
  List.length_set ..

/-- The uint8 mask computed by set_bit and clear_bit is the power of two
of the bit offset. -/
theorem mask_eq_pow (i : Nat) : (1 <<< (i % 8)) % 256 = 2 ^ (i % 8) := by
  rw [Nat.one_shiftLeft]
  apply Nat.mod_eq_of_lt
  calc 2 ^ (i % 8) < 2 ^ 8 := Nat.pow_lt_pow_right (by norm_num) (i.mod_lt (by norm_num))
    _ = 256 := by norm_num

/-- set_bit really sets its bit, provided the addressed byte exists. -/
theorem test_bit_set_bit_self (bm : List Nat) (i : Nat) (h : i / 8 < bm.length) :
    test_bit (set_bit bm i) i = 1 := by
  unfold set_bit
  have h256 : (256 : Nat) = 2 ^ 8 := by norm_num
  have hm8 : i % 8 < 8 := i.mod_lt (by norm_num)
  rw [test_bit_eq_testBit, getD_set_self _ _ _ h, Nat.one_shiftLeft, h256,
    Nat.testBit_mod_two_pow, Nat.testBit_lor, Nat.testBit_two_pow_self]
  simp [hm8]

/-- set_bit leaves every other bit of the bitmap unchanged. -/
theorem test_bit_set_bit_other (bm : List Nat) (i j : Nat) (hne : j ≠ i) :
    test_bit (set_bit bm i) j = test_bit bm j := by
  unfold set_bit
  rw [test_bit_eq_testBit, test_bit_eq_testBit]
  by_cases hbyte : j / 8 = i / 8
  · rw [hbyte]
    by_cases hlen : i / 8 < bm.length
    · have h256 : (256 : Nat) = 2 ^ 8 := by norm_num
      have hm8 : j % 8 < 8 := j.mod_lt (by norm_num)
      have hoff : j % 8 ≠ i % 8 := by omega
      rw [getD_set_self _ _ _ hlen, Nat.one_shiftLeft, h256,
        Nat.testBit_mod_two_pow, Nat.testBit_lor,
        Nat.testBit_two_pow_of_ne (Ne.symm hoff)]
      simp [hm8, hbyte]
    · rw [List.set_eq_of_length_le (Nat.le_of_not_lt hlen)]
  · rw [getD_set_ne _ _ _ _ hbyte]

/-- clear_bit really clears its bit (out-of-range reads give 0 anyway). -/
theorem test_bit_clear_bit_self (bm : List Nat) (i : Nat) :
    test_bit (clear_bit bm i) i = 0 := by
  unfold clear_bit
  rw [test_bit_eq_zero_iff]
  by_cases hlen : i / 8 < bm.length
  · have hm8 : i % 8 < 8 := i.mod_lt (by norm_num)
    have h255 : (255 : Nat) = 2 ^ 8 - 1 := by norm_num
    rw [getD_set_self _ _ _ hlen, mask_eq_pow, Nat.testBit_land, h255,
      Nat.testBit_xor, Nat.testBit_two_pow_sub_one, Nat.testBit_two_pow_self]
    simp [hm8]
  · rw [List.set_eq_of_length_le (Nat.le_of_not_lt hlen),
      List.getD_eq_default _ _ (Nat.le_of_not_lt hlen)]
    simp

/-- clear_bit leaves every other bit of the bitmap unchanged. -/
theorem test_bit_clear_bit_other (bm : List Nat) (i j : Nat) (hne : j ≠ i) :
    test_bit (clear_bit bm i) j = test_bit bm j := by
  unfold clear_bit
  rw [test_bit_eq_testBit, test_bit_eq_testBit]
  by_cases hbyte : j / 8 = i / 8
  · rw [hbyte]
    by_cases hlen : i / 8 < bm.length
    · have hm8 : j % 8 < 8 := j.mod_lt (by norm_num)
      have hoff : j % 8 ≠ i % 8 := by omega
      have h255 : (255 : Nat) = 2 ^ 8 - 1 := by norm_num
      rw [getD_set_self _ _ _ hlen, mask_eq_pow, Nat.testBit_land, h255,
        Nat.testBit_xor, Nat.testBit_two_pow_sub_one,
        Nat.testBit_two_pow_of_ne (Ne.symm hoff)]
      simp [hm8, hbyte]
    · rw [List.set_eq_of_length_le (Nat.le_of_not_lt hlen)]
  · rw [getD_set_ne _ _ _ _ hbyte]

/-! ### Locator characterization -/

/-- If k is the first clear bit at or after i and within fuel steps, the
scanning loop returns k. -/
theorem find_first_free_go_eq (bm : List Nat) :
    ∀ fuel i k, i ≤ k → k < i + fuel → test_bit bm k = 0 →
      (∀ j, i ≤ j → j < k → test_bit bm j ≠ 0) →
      find_first_free_go bm fuel i = (k : Int) := by
  intro fuel
  induction fuel with
  | zero => intro i k hik hk _ _; omega
  | succ n ih =>
    intro i k hik hk hfree hset
    unfold find_first_free_go
    by_cases hi : test_bit bm i = 0
    · rw [if_pos hi]
      have : i = k := by
        by_contra hne
        exact hset i le_rfl (by omega) hi
      rw [this]
    · rw [if_neg hi]
      have hik2 : i + 1 ≤ k := by
        rcases Nat.eq_or_lt_of_le hik with rfl | hlt
        · exact absurd hfree hi
        · omega
      exact ih (i + 1) k hik2 (by omega) hfree (fun j hj1 hj2 => hset j (by omega) hj2)

/-- If every bit in the scanned window is set, the loop returns -1. -/
theorem find_first_free_go_neg (bm : List Nat) :
    ∀ fuel i, (∀ j, i ≤ j → j < i + fuel → test_bit bm j ≠ 0) →
      find_first_free_go bm fuel i = -1 := by
  intro fuel
  induction fuel with
  | zero => intro i _; rfl
  | succ n ih =>
    intro i hset
    unfold find_first_free_go
    rw [if_neg (hset i le_rfl (by omega))]
    exact ih (i + 1) (fun j hj1 hj2 => hset j (by omega) (by omega))

/-- Complete characterization of the scanning loop: it returns -1, or the
first clear index in the scanned window. -/
theorem find_first_free_go_spec (bm : List Nat) :
    ∀ fuel i, find_first_free_go bm fuel i = -1 ∨
      ∃ k, i ≤ k ∧ k < i + fuel ∧ find_first_free_go bm fuel i = (k : Int) ∧
        test_bit bm k = 0 ∧ ∀ j, i ≤ j → j < k → test_bit bm j ≠ 0 := by
  intro fuel
  induction fuel with
  | zero => intro i; exact Or.inl rfl
  | succ n ih =>
    intro i
    unfold find_first_free_go
    by_cases hi : test_bit bm i = 0
    · rw [if_pos hi]
      exact Or.inr ⟨i, le_rfl, by omega, rfl, hi, fun j hj1 hj2 => by omega⟩
    · rw [if_neg hi]
      rcases ih (i + 1) with hnone | ⟨k, hk1, hk2, hk3, hk4, hk5⟩
      · exact Or.inl hnone
      · refine Or.inr ⟨k, by omega, by omega, hk3, hk4, fun j hj1 hj2 => ?_⟩
        rcases Nat.eq_or_lt_of_le hj1 with rfl | hlt
        · exact hi
        · exact hk5 j (by omega) hj2

/-! ### mem_set and free count lemmas -/

/-- Filling a whole byte list gives the constant list. -/
theorem mem_set_full (v : Nat) : ∀ l : List Nat,
    mem_set l v l.length = List.replicate l.length (v % 256) := by
  intro l
  induction l with
  | nil => rfl
  | cons b rest ih => simpa [mem_set, List.replicate_succ] using ih

/-- The counting loop counts the clear bits among indices below n. -/
theorem free_count_upto_eq (bm : List Nat) :
    ∀ n, free_count_upto bm n = (List.range n).countP (fun i => test_bit bm i == 0) := by
  intro n
  induction n with
  | zero => rfl
  | succ m ih =>
    rw [List.range_succ, List.countP_append]
    unfold free_count_upto
    rw [ih]
    by_cases hm : test_bit bm m = 0 <;> simp [hm, List.countP_cons]

/-! ### pool_free reduction lemmas -/

/-- Any validation failure makes pool_free a silent no-op: NULL block
pointer, pointer below the pool, pointer at or past the end of the pool,
or offset not a multiple of the block size. -/
theorem pool_free_invalid (h : TPool_handle) (p : Option Int)
    (hinv : p = none ∨ ∃ off, p = some off ∧
      (off < 0 ∨ ((POOL_NUM_BLOCKS * POOL_BLOCK_SIZE : Nat) : Int) ≤ off ∨
        off % ((POOL_BLOCK_SIZE : Nat) : Int) ≠ 0)) :
    pool_free (some h) p = some h := by
  rcases hinv with rfl | ⟨off, rfl, hcase⟩
  · rfl
  · simp only [pool_free]
    simp only [POOL_NUM_BLOCKS, POOL_BLOCK_SIZE] at hcase ⊢
    by_cases hb : off < 0 ∨ ((4 * 32 : Nat) : Int) ≤ off
    · rw [if_pos hb]
    · rw [if_neg hb]
      have hal : off.toNat % 32 ≠ 0 := by omega
      rw [if_pos hal]

/-- When every validation passes, pool_free reduces to the defensive
test-and-clear of the computed block index. -/
theorem pool_free_valid (h : TPool_handle) (off : Int) (h0 : 0 ≤ off)
    (h1 : off < ((POOL_NUM_BLOCKS * POOL_BLOCK_SIZE : Nat) : Int))
    (hal : off.toNat % POOL_BLOCK_SIZE = 0) :
    pool_free (some h) (some off) =
      if test_bit h.bitmap (off.toNat / POOL_BLOCK_SIZE) ≠ 0 then
        some { h with bitmap := clear_bit h.bitmap (off.toNat / POOL_BLOCK_SIZE) }
      else
        some h := by
  simp only [pool_free]
  simp only [POOL_NUM_BLOCKS, POOL_BLOCK_SIZE] at h1 hal ⊢
  rw [if_neg (by omega), if_neg (by omega), if_neg (by omega)]

/-! ### pool_init lemmas -/

/-- On any well-formed handle, pool_init zeroes every byte of the handle,
yielding the all-zero state. -/
theorem pool_init_eq (h : TPool_handle) (hWF : h.WF) :
    pool_init (some h) = some all_zero_handle := by
  obtain ⟨hm, hb, _, _⟩ := hWF
  have hlen : (h.memory ++ h.bitmap).length = POOL_NUM_BLOCKS * POOL_BLOCK_SIZE + BITMAP_BYTES := by
    simp [hm, hb]
  have hfill : mem_set (h.memory ++ h.bitmap) 0 (POOL_NUM_BLOCKS * POOL_BLOCK_SIZE + BITMAP_BYTES)
      = List.replicate (POOL_NUM_BLOCKS * POOL_BLOCK_SIZE + BITMAP_BYTES) 0 := by
    rw [← hlen, mem_set_full, hlen]
  simp only [pool_init, hfill, all_zero_handle]
  rw [List.take_replicate, List.drop_replicate]
  congr 2

set_option maxRecDepth 4000 in
theorem all_zero_handle_WF : all_zero_handle.WF := by decide

/-! ### Case analyses of the two mutating operations -/

/-- pool_alloc on a non-NULL handle either fails leaving the handle
unchanged, or marks the first free index and returns its block offset. -/
theorem pool_alloc_cases (h : TPool_handle) :
    pool_alloc (some h) = (none, some h) ∨
    ∃ k, k < POOL_NUM_BLOCKS ∧ test_bit h.bitmap k = 0 ∧
      (∀ j, j < k → test_bit h.bitmap j ≠ 0) ∧
      pool_alloc (some h) = (some (k * POOL_BLOCK_SIZE),
        some { h with bitmap := set_bit h.bitmap k }) := by
  rcases find_first_free_go_spec h.bitmap POOL_NUM_BLOCKS 0 with hneg | ⟨k, _, hk2, hk3, hk4, hk5⟩
  · left
    simp only [pool_alloc, find_first_free, hneg]
    rw [if_pos (by norm_num)]
  · right
    refine ⟨k, by omega, hk4, fun j hj => hk5 j (Nat.zero_le j) hj, ?_⟩
    simp only [pool_alloc, find_first_free, hk3]
    rw [if_neg (by omega)]
    simp

/-- pool_free on a non-NULL handle either changes nothing, or clears one
currently-set bit whose index is a valid block index. -/
theorem pool_free_cases (h : TPool_handle) (p : Option Int) :
    pool_free (some h) p = some h ∨
    ∃ i, i < POOL_NUM_BLOCKS ∧ test_bit h.bitmap i ≠ 0 ∧
      pool_free (some h) p = some { h with bitmap := clear_bit h.bitmap i } := by
  rcases p with _ | off
  · exact Or.inl rfl
  · by_cases hb : off < 0 ∨ ((POOL_NUM_BLOCKS * POOL_BLOCK_SIZE : Nat) : Int) ≤ off
    · left
      simp only [pool_free]
      rw [if_pos hb]
    · push_neg at hb
      by_cases hal : off.toNat % POOL_BLOCK_SIZE = 0
      · have hred := pool_free_valid h off hb.1 hb.2 hal
        by_cases hz : test_bit h.bitmap (off.toNat / POOL_BLOCK_SIZE) ≠ 0
        · right
          refine ⟨off.toNat / POOL_BLOCK_SIZE, ?_, hz, by rw [hred, if_pos hz]⟩
          have hlt := hb.2
          simp only [POOL_NUM_BLOCKS, POOL_BLOCK_SIZE] at hlt ⊢
          omega
        · left
          rw [hred, if_neg hz]
      · left
        apply pool_free_invalid h (some off)
        refine Or.inr ⟨off, rfl, Or.inr (Or.inr ?_)⟩
        have h0 := hb.1
        simp only [POOL_BLOCK_SIZE] at hal ⊢
        omega

/-! ### Well-formedness and padding preservation -/

/-- Every bit of an all-zero bitmap reads as clear. -/
theorem test_bit_replicate_zero (n j : Nat) : test_bit (List.replicate n 0) j = 0 := by
  rw [test_bit_eq_zero_iff]
  by_cases hj : j / 8 < n
  · rw [List.getD_eq_getElem _ _ (by simpa using hj)]
    simp
  · rw [List.getD_eq_default _ _ (by simpa using Nat.le_of_not_lt hj)]
    simp

theorem set_bit_byte_bound (bm : List Nat) (i : Nat) : ∀ b ∈ set_bit bm i, b ∈ bm ∨ b < 256 := by
  intro b hb
  rcases List.mem_or_eq_of_mem_set hb with hmem | rfl
  · exact Or.inl hmem
  · exact Or.inr (Nat.mod_lt _ (by norm_num))

theorem clear_bit_byte_bound (bm : List Nat) (i : Nat)
    (hbm : ∀ b ∈ bm, b < 256) : ∀ b ∈ clear_bit bm i, b < 256 := by
  intro b hb
  rcases List.mem_or_eq_of_mem_set hb with hmem | rfl
  · exact hbm b hmem
  · have hx : (255 : Nat) ^^^ (1 <<< (i % 8)) % 256 < 256 := by
      have h1 : (255 : Nat) < 2 ^ 8 := by norm_num
      have h2 : (1 <<< (i % 8)) % 256 < 2 ^ 8 := by
        have := Nat.mod_lt (1 <<< (i % 8)) (show 0 < 256 by norm_num)
        omega
      have := Nat.xor_lt_two_pow h1 h2
      omega
    calc bm.getD (i / 8) 0 &&& (255 ^^^ (1 <<< (i % 8)) % 256)
        ≤ 255 ^^^ (1 <<< (i % 8)) % 256 := Nat.and_le_right
      _ < 256 := hx

theorem set_bit_WF (h : TPool_handle) (i : Nat) (hWF : h.WF) :
    ({ h with bitmap := set_bit h.bitmap i } : TPool_handle).WF := by
  obtain ⟨h1, h2, h3, h4⟩ := hWF
  refine ⟨h1, by rw [length_set_bit, h2], h3, ?_⟩
  intro b hb
  rcases set_bit_byte_bound h.bitmap i b hb with hmem | hlt
  · exact h4 b hmem
  · exact hlt

theorem clear_bit_WF (h : TPool_handle) (i : Nat) (hWF : h.WF) :
    ({ h with bitmap := clear_bit h.bitmap i } : TPool_handle).WF := by
  obtain ⟨h1, h2, h3, h4⟩ := hWF
  exact ⟨h1, by rw [length_clear_bit, h2], h3, clear_bit_byte_bound h.bitmap i h4⟩

/-- One API call on a non-NULL handle yields a non-NULL handle and
preserves well-formedness together with clearness of all padding bits. -/
theorem run_op_preserves (op : PoolOp) (h : TPool_handle) (hWF : h.WF)
    (hpad : ∀ j, POOL_NUM_BLOCKS ≤ j → test_bit h.bitmap j = 0) :
    ∃ h2, run_op op (some h) = some h2 ∧ h2.WF ∧
      ∀ j, POOL_NUM_BLOCKS ≤ j → test_bit h2.bitmap j = 0 := by
  cases op with
  | opInit =>
    refine ⟨all_zero_handle, ?_, all_zero_handle_WF, ?_⟩
    · exact pool_init_eq h hWF
    · intro j _
      exact test_bit_replicate_zero BITMAP_BYTES j
  | opAlloc =>
    rcases pool_alloc_cases h with hc | ⟨k, hk, _, _, hc⟩
    · exact ⟨h, by rw [run_op, hc], hWF, hpad⟩
    · refine ⟨_, by rw [run_op, hc], set_bit_WF h k hWF, ?_⟩
      intro j hj
      rw [show ({ h with bitmap := set_bit h.bitmap k } : TPool_handle).bitmap = set_bit h.bitmap k from rfl,
        test_bit_set_bit_other h.bitmap k j (by omega)]
      exact hpad j hj
  | opFree q =>
    rcases pool_free_cases h q with hc | ⟨i, hi, _, hc⟩
    · exact ⟨h, by rw [run_op, hc], hWF, hpad⟩
    · refine ⟨_, by rw [run_op, hc], clear_bit_WF h i hWF, ?_⟩
      intro j hj
      rw [show ({ h with bitmap := clear_bit h.bitmap i } : TPool_handle).bitmap = clear_bit h.bitmap i from rfl,
        test_bit_clear_bit_other h.bitmap i j (by omega)]
      exact hpad j hj
  | opCount => exact ⟨h, rfl, hWF, hpad⟩

/-- Any sequence of API calls preserves well-formedness and clearness of
the padding bits. -/
theorem run_ops_preserves : ∀ (ops : List PoolOp) (h : TPool_handle), h.WF →
    (∀ j, POOL_NUM_BLOCKS ≤ j → test_bit h.bitmap j = 0) →
    ∀ h2, run_ops ops (some h) = some h2 →
      h2.WF ∧ ∀ j, POOL_NUM_BLOCKS ≤ j → test_bit h2.bitmap j = 0 := by
  intro ops
  induction ops with
  | nil =>
    intro h hWF hpad h2 hrun
    simp only [run_ops, List.foldl_nil, Option.some_inj] at hrun
    exact hrun ▸ ⟨hWF, hpad⟩
  | cons op rest ih =>
    intro h hWF hpad h2 hrun
    obtain ⟨h3, hh3, hWF3, hpad3⟩ := run_op_preserves op h hWF hpad
    simp only [run_ops, List.foldl_cons] at hrun
    rw [hh3] at hrun
    exact ih h3 hWF3 hpad3 h2 hrun

/-! ### Claim theorems -/

/-- C1: For every handle with at least one free block, pool_alloc returns
the address storage_base + i*BLOCK_SIZE where i is the lowest index in
0..NUM_BLOCKS-1 whose occupancy bit is clear, and sets that bit. In
particular a later allocation always returns the lowest-indexed free
block overall, not necessarily a just-freed one. -/
theorem claim_C1 (h : TPool_handle) (i : Nat)
    (hlen : h.bitmap.length = BITMAP_BYTES)
    (hi : i < POOL_NUM_BLOCKS)
    (hfree : test_bit h.bitmap i = 0)
    (hmin : ∀ j, j < i → test_bit h.bitmap j ≠ 0) :
    pool_alloc (some h) = (some (i * POOL_BLOCK_SIZE),
      some { h with bitmap := set_bit h.bitmap i }) ∧
    test_bit (set_bit h.bitmap i) i = 1 := by
  have hff : find_first_free h.bitmap POOL_NUM_BLOCKS = (i : Int) :=
    find_first_free_go_eq h.bitmap POOL_NUM_BLOCKS 0 i (Nat.zero_le i) (by omega) hfree
      (fun j _ hj => hmin j hj)
  constructor
  · simp only [pool_alloc, find_first_free] at hff ⊢
    rw [hff, if_neg (by omega)]
    simp
  · apply test_bit_set_bit_self
    rw [hlen]
    simp only [BITMAP_BYTES, POOL_NUM_BLOCKS] at hi ⊢
    omega

theorem claim_C1_witness :
    pool_alloc (some ⟨List.replicate 128 0, [1]⟩) =
      (some (1 * POOL_BLOCK_SIZE), some ⟨List.replicate 128 0, set_bit [1] 1⟩) ∧
    test_bit (set_bit [1] 1) 1 = 1 :=
  claim_C1 ⟨List.replicate 128 0, [1]⟩ 1 (by decide) (by decide) (by decide) (by decide)

/-- C2: Starting from the all-free state, exactly NUM_BLOCKS consecutive
pool_alloc calls return distinct non-null pointers (the block offsets
0, 32, 64, 96); any pool_alloc on a handle whose NUM_BLOCKS occupancy
bits are all set returns the null sentinel and leaves the handle
entirely unchanged, and in particular the (NUM_BLOCKS+1)-th call after
the all-free state does so. -/
theorem claim_C2 (h : TPool_handle)
    (hfull : ∀ i, i < POOL_NUM_BLOCKS → test_bit h.bitmap i ≠ 0) :
    (alloc_results POOL_NUM_BLOCKS (some all_zero_handle)).1 =
      [some (0 * POOL_BLOCK_SIZE), some (1 * POOL_BLOCK_SIZE),
       some (2 * POOL_BLOCK_SIZE), some (3 * POOL_BLOCK_SIZE)] ∧
    (alloc_results POOL_NUM_BLOCKS (some all_zero_handle)).1.Pairwise (· ≠ ·) ∧
    (∀ r ∈ (alloc_results POOL_NUM_BLOCKS (some all_zero_handle)).1, r ≠ none) ∧
    pool_alloc (alloc_results POOL_NUM_BLOCKS (some all_zero_handle)).2 =
      (none, (alloc_results POOL_NUM_BLOCKS (some all_zero_handle)).2) ∧
    pool_alloc (some h) = (none, some h) := by
  refine ⟨by decide, by decide, by decide, by decide, ?_⟩
  have hff : find_first_free h.bitmap POOL_NUM_BLOCKS = -1 :=
    find_first_free_go_neg h.bitmap POOL_NUM_BLOCKS 0 (fun j _ hj => hfull j (by omega))
  simp only [pool_alloc, find_first_free] at hff ⊢
  rw [hff, if_pos (by norm_num)]

set_option maxRecDepth 8000 in
theorem claim_C2_witness :
    (alloc_results POOL_NUM_BLOCKS (some all_zero_handle)).1 =
      [some (0 * POOL_BLOCK_SIZE), some (1 * POOL_BLOCK_SIZE),
       some (2 * POOL_BLOCK_SIZE), some (3 * POOL_BLOCK_SIZE)] ∧
    (alloc_results POOL_NUM_BLOCKS (some all_zero_handle)).1.Pairwise (· ≠ ·) ∧
    (∀ r ∈ (alloc_results POOL_NUM_BLOCKS (some all_zero_handle)).1, r ≠ none) ∧
    pool_alloc (alloc_results POOL_NUM_BLOCKS (some all_zero_handle)).2 =
      (none, (alloc_results POOL_NUM_BLOCKS (some all_zero_handle)).2) ∧
    pool_alloc (some ⟨List.replicate 128 0, [255]⟩) =
      (none, some ⟨List.replicate 128 0, [255]⟩) :=
  claim_C2 ⟨List.replicate 128 0, [255]⟩ (by decide)

/-- C3: For every non-null well-formed handle in any prior state,
pool_init zeroes every byte of storage and of the occupancy bitmap, so
every block is free and the free count is NUM_BLOCKS immediately after;
repeated calls are idempotent, each yielding the same all-free state. -/
theorem claim_C3 (h : TPool_handle) (hWF : h.WF) :
    pool_init (some h) = some all_zero_handle ∧
    (∀ b ∈ all_zero_handle.memory, b = 0) ∧
    (∀ b ∈ all_zero_handle.bitmap, b = 0) ∧
    (∀ i, i < POOL_NUM_BLOCKS → test_bit all_zero_handle.bitmap i = 0) ∧
    pool_get_free_count (pool_init (some h)) = POOL_NUM_BLOCKS ∧
    pool_init (pool_init (some h)) = pool_init (some h) := by
  have h1 : pool_init (some h) = some all_zero_handle := pool_init_eq h hWF
  refine ⟨h1, ?_, ?_, ?_, ?_, ?_⟩
  · intro b hb
    exact List.eq_of_mem_replicate hb
  · intro b hb
    exact List.eq_of_mem_replicate hb
  · intro i _
    exact test_bit_replicate_zero BITMAP_BYTES i
  · rw [h1]
    decide
  · rw [h1, pool_init_eq all_zero_handle all_zero_handle_WF]

set_option maxRecDepth 8000 in
theorem claim_C3_witness :
    pool_init (some ⟨List.replicate 128 7, [255]⟩) = some all_zero_handle ∧
    (∀ b ∈ all_zero_handle.memory, b = 0) ∧
    (∀ b ∈ all_zero_handle.bitmap, b = 0) ∧
    (∀ i, i < POOL_NUM_BLOCKS → test_bit all_zero_handle.bitmap i = 0) ∧
    pool_get_free_count (pool_init (some ⟨List.replicate 128 7, [255]⟩)) = POOL_NUM_BLOCKS ∧
    pool_init (pool_init (some ⟨List.replicate 128 7, [255]⟩)) =
      pool_init (some ⟨List.replicate 128 7, [255]⟩) :=
  claim_C3 ⟨List.replicate 128 7, [255]⟩ (by decide)

/-- C4: For every handle and every invalid block pointer passed to free
(null pointer, pointer below the storage base, pointer at or above
storage_base + NUM_BLOCKS*BLOCK_SIZE, or pointer whose offset from the
storage base is not a multiple of BLOCK_SIZE), pool_free is a complete
no-op: the handle is returned unchanged, so no bitmap bit, no storage
byte, and no free count changes, and no error is signalled. -/
theorem claim_C4 (h : TPool_handle) (p : Option Int)
    (hinv : p = none ∨ ∃ off, p = some off ∧
      (off < 0 ∨ ((POOL_NUM_BLOCKS * POOL_BLOCK_SIZE : Nat) : Int) ≤ off ∨
        off % ((POOL_BLOCK_SIZE : Nat) : Int) ≠ 0)) :
    pool_free (some h) p = some h ∧
    pool_get_free_count (pool_free (some h) p) = pool_get_free_count (some h) := by
  have hno := pool_free_invalid h p hinv
  exact ⟨hno, by rw [hno]⟩

theorem claim_C4_witness :
    pool_free (some ⟨List.replicate 128 0, [255]⟩) (some (-1)) =
      some ⟨List.replicate 128 0, [255]⟩ ∧
    pool_get_free_count (pool_free (some ⟨List.replicate 128 0, [255]⟩) (some (-1))) =
      pool_get_free_count (some ⟨List.replicate 128 0, [255]⟩) :=
  claim_C4 ⟨List.replicate 128 0, [255]⟩ (some (-1))
    (Or.inr ⟨-1, rfl, Or.inl (by norm_num)⟩)

/-- C5: pool_free is idempotent on a valid block pointer: freeing a block
whose occupancy bit is already clear is a silent no-op with no state
change, and calling free twice on the same valid pointer leaves the
handle, hence the free count, exactly as after the first call. -/
theorem claim_C5 (h : TPool_handle) (off : Int) (h0 : 0 ≤ off)
    (h1 : off < ((POOL_NUM_BLOCKS * POOL_BLOCK_SIZE : Nat) : Int))
    (hal : off.toNat % POOL_BLOCK_SIZE = 0) :
    (test_bit h.bitmap (off.toNat / POOL_BLOCK_SIZE) = 0 →
      pool_free (some h) (some off) = some h) ∧
    pool_free (pool_free (some h) (some off)) (some off) = pool_free (some h) (some off) ∧
    pool_get_free_count (pool_free (pool_free (some h) (some off)) (some off)) =
      pool_get_free_count (pool_free (some h) (some off)) := by
  have hred := pool_free_valid h off h0 h1 hal
  have hno : test_bit h.bitmap (off.toNat / POOL_BLOCK_SIZE) = 0 →
      pool_free (some h) (some off) = some h := by
    intro hz
    rw [hred, if_neg (by simp [hz])]
  have hidem : pool_free (pool_free (some h) (some off)) (some off) =
      pool_free (some h) (some off) := by
    by_cases hz : test_bit h.bitmap (off.toNat / POOL_BLOCK_SIZE) = 0
    · rw [hno hz]
      exact hno hz
    · have hstep : pool_free (some h) (some off) =
          some { h with bitmap := clear_bit h.bitmap (off.toNat / POOL_BLOCK_SIZE) } := by
        rw [hred, if_pos hz]
      rw [hstep, pool_free_valid _ off h0 h1 hal,
        if_neg (by simp [test_bit_clear_bit_self])]
  exact ⟨hno, hidem, by rw [hidem]⟩

theorem claim_C5_witness :
    (test_bit ([255] : List Nat) ((32 : Int).toNat / POOL_BLOCK_SIZE) = 0 →
      pool_free (some ⟨List.replicate 128 0, [255]⟩) (some 32) =
        some ⟨List.replicate 128 0, [255]⟩) ∧
    pool_free (pool_free (some ⟨List.replicate 128 0, [255]⟩) (some 32)) (some 32) =
      pool_free (some ⟨List.replicate 128 0, [255]⟩) (some 32) ∧
    pool_get_free_count
        (pool_free (pool_free (some ⟨List.replicate 128 0, [255]⟩) (some 32)) (some 32)) =
      pool_get_free_count (pool_free (some ⟨List.replicate 128 0, [255]⟩) (some 32)) :=
  claim_C5 ⟨List.replicate 128 0, [255]⟩ 32 (by norm_num) (by decide) (by decide)

/-- C6: Every successful pool_alloc call sets exactly one occupancy bit,
namely the chosen index, which transitions from free to allocated, and
leaves every other bitmap bit and every byte of the storage region
unchanged; the returned offset is that index times the block size, and
the block content is not cleared or initialized. -/
theorem claim_C6 (h : TPool_handle) (r : Nat) (p2 : Option TPool_handle)
    (hlen : h.bitmap.length = BITMAP_BYTES)
    (hsucc : pool_alloc (some h) = (some r, p2)) :
    ∃ i, i < POOL_NUM_BLOCKS ∧ test_bit h.bitmap i = 0 ∧ r = i * POOL_BLOCK_SIZE ∧
      p2 = some { h with bitmap := set_bit h.bitmap i } ∧
      test_bit (set_bit h.bitmap i) i = 1 ∧
      (∀ j, j ≠ i → test_bit (set_bit h.bitmap i) j = test_bit h.bitmap j) ∧
      ({ h with bitmap := set_bit h.bitmap i } : TPool_handle).memory = h.memory := by
  rcases pool_alloc_cases h with hc | ⟨k, hk, hfree, _, hc⟩
  · rw [hc] at hsucc
    simp at hsucc
  · rw [hc] at hsucc
    injection hsucc with h1 h2
    injection h1 with h1
    refine ⟨k, hk, hfree, h1.symm, h2.symm, ?_, ?_, rfl⟩
    · apply test_bit_set_bit_self
      rw [hlen]
      simp only [BITMAP_BYTES, POOL_NUM_BLOCKS] at hk ⊢
      omega
    · exact fun j hj => test_bit_set_bit_other h.bitmap k j hj

theorem claim_C6_witness :
    ∃ i, i < POOL_NUM_BLOCKS ∧
      test_bit (all_zero_handle.bitmap) i = 0 ∧ 0 = i * POOL_BLOCK_SIZE ∧
      (some ⟨List.replicate 128 0, [1]⟩ : Option TPool_handle) =
        some { all_zero_handle with bitmap := set_bit all_zero_handle.bitmap i } ∧
      test_bit (set_bit all_zero_handle.bitmap i) i = 1 ∧
      (∀ j, j ≠ i → test_bit (set_bit all_zero_handle.bitmap i) j =
        test_bit all_zero_handle.bitmap j) ∧
      ({ all_zero_handle with bitmap := set_bit all_zero_handle.bitmap i } :
        TPool_handle).memory = all_zero_handle.memory :=
  claim_C6 all_zero_handle 0 (some ⟨List.replicate 128 0, [1]⟩) (by decide) (by decide)

/-- C7: pool_get_free_count returns exactly the number of clear bits
among occupancy bit indices 0..NUM_BLOCKS-1 (it is a pure function of
the handle, so it modifies nothing), and returns 0 on a null handle. -/
theorem claim_C7 (h : TPool_handle) :
    pool_get_free_count (some h) =
      (List.range POOL_NUM_BLOCKS).countP (fun i => test_bit h.bitmap i == 0) ∧
    pool_get_free_count none = 0 :=
  ⟨free_count_upto_eq h.bitmap POOL_NUM_BLOCKS, rfl⟩

/-- C8: The occupancy bitmap occupies exactly ceil(NUM_BLOCKS/8) =
(NUM_BLOCKS+7)/8 bytes, and no sequence of API operations ever disturbs
a bit at index NUM_BLOCKS or beyond: starting from any well-formed
handle whose padding bits are clear (as initialize leaves them), the
padding bits remain clear and the bitmap keeps its exact size after
every sequence of operations. -/
theorem claim_C8 (ops : List PoolOp) (h h2 : TPool_handle)
    (hWF : h.WF)
    (hpad : ∀ j, POOL_NUM_BLOCKS ≤ j → test_bit h.bitmap j = 0)
    (hrun : run_ops ops (some h) = some h2) :
    h2.bitmap.length = (POOL_NUM_BLOCKS + 7) / 8 ∧
    (∀ j, POOL_NUM_BLOCKS ≤ j → test_bit h2.bitmap j = 0) := by
  obtain ⟨hWF2, hpad2⟩ := run_ops_preserves ops h hWF hpad h2 hrun
  exact ⟨hWF2.2.1, hpad2⟩

set_option maxRecDepth 8000 in
theorem claim_C8_witness :
    all_zero_handle.bitmap.length = (POOL_NUM_BLOCKS + 7) / 8 ∧
    (∀ j, POOL_NUM_BLOCKS ≤ j → test_bit all_zero_handle.bitmap j = 0) :=
  claim_C8 [PoolOp.opAlloc, PoolOp.opAlloc, PoolOp.opFree (some 0), PoolOp.opCount,
      PoolOp.opInit] all_zero_handle all_zero_handle all_zero_handle_WF
    (fun j _ => test_bit_replicate_zero BITMAP_BYTES j) (by decide)

/-- C9: pool_free never modifies the storage array, and changes at most
one bitmap bit: for every handle and every pointer argument, the storage
bytes are all unchanged, and either the handle is entirely unchanged or
exactly one bit, a valid block index that was set, transitions to clear
while every other bit is unchanged. -/
theorem claim_C9 (h : TPool_handle) (p : Option Int) :
    ∃ h2, pool_free (some h) p = some h2 ∧ h2.memory = h.memory ∧
      (h2 = h ∨ ∃ i, i < POOL_NUM_BLOCKS ∧ test_bit h.bitmap i ≠ 0 ∧
        h2.bitmap = clear_bit h.bitmap i ∧ test_bit h2.bitmap i = 0 ∧
        ∀ j, j ≠ i → test_bit h2.bitmap j = test_bit h.bitmap j) := by
  rcases pool_free_cases h p with hc | ⟨i, hi, hz, hc⟩
  · exact ⟨h, hc, rfl, Or.inl rfl⟩
  · refine ⟨_, hc, rfl, Or.inr ⟨i, hi, hz, rfl, ?_, ?_⟩⟩
    · exact test_bit_clear_bit_self h.bitmap i
    · exact fun j hj => test_bit_clear_bit_other h.bitmap i j hj

/-- C10: In pool_free, the final range check on the computed block index
is redundant: whenever the bounds check passes, the index
(pointer offset) / BLOCK_SIZE is necessarily below NUM_BLOCKS, so the
early-return branch it guards is never taken, and removing it leaves
pool_free extensionally unchanged on every input. -/
theorem claim_C10 (off : Int) (h0 : 0 ≤ off)
    (h1 : off < ((POOL_NUM_BLOCKS * POOL_BLOCK_SIZE : Nat) : Int)) :
    off.toNat / POOL_BLOCK_SIZE < POOL_NUM_BLOCKS ∧
    ∀ (p : Option TPool_handle) (q : Option Int),
      pool_free p q = pool_free_unguarded p q := by
  constructor
  · simp only [POOL_NUM_BLOCKS, POOL_BLOCK_SIZE] at h1 ⊢
    omega
  · intro p q
    rcases p with _ | h
    · rfl
    · rcases q with _ | o
      · rfl
      · simp only [pool_free, pool_free_unguarded]
        by_cases hb : o < 0 ∨ ((POOL_NUM_BLOCKS * POOL_BLOCK_SIZE : Nat) : Int) ≤ o
        · rw [if_pos hb, if_pos hb]
        · rw [if_neg hb, if_neg hb]
          by_cases hal : o.toNat % POOL_BLOCK_SIZE ≠ 0
          · rw [if_pos hal, if_pos hal]
          · rw [if_neg hal, if_neg hal, if_neg ?hidx]
            case hidx =>
              push_neg at hb
              have hlt := hb.2
              simp only [POOL_NUM_BLOCKS, POOL_BLOCK_SIZE] at hlt ⊢
              omega

theorem claim_C10_witness :
    (0 : Int).toNat / POOL_BLOCK_SIZE < POOL_NUM_BLOCKS ∧
    ∀ (p : Option TPool_handle) (q : Option Int),
      pool_free p q = pool_free_unguarded p q :=
  claim_C10 0 le_rfl (by decide)
